import Mathlib

/-!
# Verification of TidyFile's result-store cleanup (start_viewer_server.pyw)

Shallow embedding of the duplicate-cleanup path of `start_viewer_server.pyw`
(`remove_duplicate_files`, `handle_clean_duplicates`, `start_local_server`)
and, where the repository ships only documentation for a module
(`ai_client_manager.py`), a model built from the specification.

Modelling conventions:
* A JSON record is a `Record`.  The fields the cleanup code reads are kept
  explicitly (`文件名` as `fileName`, `文章标题` as `title`, `处理时间` as
  `time`); every other field is abstracted into `payload`, which keeps
  distinct records distinguishable.
* `datetime.fromisoformat` values are abstracted to `Int` through any
  order-embedding sending `1970-01-01 00:00:00` (the default used when the
  field is absent) to `0`.  An absent `处理时间` field is `none`.
* Python's `list.sort(key=..., reverse=True)` is the stable descending sort
  by the key; the stable sort is unique, so it is embedded as a stable
  insertion sort.
* Python dicts preserve insertion order, so the `file_map` dict is an
  association list to which new keys are appended on the right;
  `list(file_map.values())` is `map Prod.snd`.
-/

/-- One JSON record of `ai_organize_result.json`.  `fileName`, `title` and
`time` model the fields `文件名`, `文章标题`, `处理时间`; `none` means the
field is absent.  All remaining fields are abstracted into `payload`. -/
structure Record where
  fileName : Option String
  title : Option String
  time : Option Int
  payload : Nat
deriving DecidableEq, Repr

/-- The sort key of `remove_duplicate_files`:
`datetime.fromisoformat(x.get('处理时间', '1970-01-01 00:00:00'))`, with
datetimes abstracted to `Int` and the epoch default mapped to `0`. -/
def timeKey (r : Record) : Int :=
  r.time.getD 0

/-- The deduplication key computed inside the loop of
`remove_duplicate_files`: `file_name = item.get('文件名')`, and if that is
falsy (absent or empty) `file_name = item.get('文章标题', '')`. -/
def dedupKey (r : Record) : String :=
  let fn := r.fileName.getD ""
  if fn = "" then r.title.getD "" else fn

/-- Stable descending insertion by `timeKey`: `r` is placed before the first
element whose key is `≤ timeKey r`, hence before equal keys arriving from
later positions of the input (stability). -/
def insertDesc (r : Record) : List Record → List Record
  | [] => [r]
  | s :: rest => if timeKey s ≤ timeKey r then r :: s :: rest else s :: insertDesc r rest

/-- Embedding of `data.sort(key=..., reverse=True)`: the stable descending
sort by `timeKey` (CPython's sort is stable and `reverse=True` reverses the
comparison while preserving the order of equal keys). -/
def pySortDesc : List Record → List Record
  | [] => []
  | r :: rest => insertDesc r (pySortDesc rest)

/-- The loop body of `remove_duplicate_files`: `file_map` is the
insertion-ordered dict from keys to records; a record is added only when its
key is truthy and not yet present. -/
def dedupScan (fileMap : List (String × Record)) : List Record → List (String × Record)
  | [] => fileMap
  | item :: rest =>
      if dedupKey item ≠ "" ∧ dedupKey item ∉ fileMap.map Prod.fst then
        dedupScan (fileMap ++ [(dedupKey item, item)]) rest
      else
        dedupScan fileMap rest

/-- `remove_duplicate_files` of `start_viewer_server.pyw` (lines 169-184):
sort by processing time descending (stable), then keep the first record per
truthy deduplication key, in insertion order of the dict. -/
def remove_duplicate_files (data : List Record) : List Record :=
  (dedupScan [] (pySortDesc data)).map Prod.snd

/-- State of the persisted file `ai_organize_result.json`: absent, present
but not valid JSON, or present with a parsed list of records. -/
inductive FileState where
  | missing
  | invalid (raw : String)
  | valid (records : List Record)
deriving DecidableEq, Repr

/-- The JSON body sent back by `handle_clean_duplicates`: `success`, and the
three counts present only on success (`removed_count` is a Python `int`,
hence `Int`). -/
structure CleanResponse where
  success : Bool
  original_count : Option Nat
  cleaned_count : Option Nat
  removed_count : Option Int
deriving DecidableEq, Repr

/-- `handle_clean_duplicates` (lines 88-121): a missing file or a file whose
contents fail `json.load` answers `success: False` without touching the
file; otherwise the cleaned list is written back and the counts reported.
The pair is (file state after the call, response sent). -/
def handle_clean_duplicates : FileState → FileState × CleanResponse
  | FileState.missing => (FileState.missing, ⟨false, none, none, none⟩)
  | FileState.invalid raw => (FileState.invalid raw, ⟨false, none, none, none⟩)
  | FileState.valid data =>
      let cleaned := remove_duplicate_files data
      (FileState.valid cleaned,
        ⟨true, some data.length, some cleaned.length,
          some ((data.length : Int) - (cleaned.length : Int))⟩)

/-- Loading the persisted collection (`json.load` on the result file). -/
def loadAll : FileState → Except String (List Record)
  | FileState.missing => Except.error "file does not exist"
  | FileState.invalid _ => Except.error "parse error"
  | FileState.valid data => Except.ok data

/-- The two files `start_local_server` looks at before serving. -/
structure ServerFS where
  htmlExists : Bool
  resultFile : FileState
deriving DecidableEq, Repr

/-- `start_local_server` (lines 262-281): abort (`False`) when the HTML
viewer file is missing; otherwise, when the result file is absent, write the
literal text `[]` (which parses to the empty list) before serving. -/
def start_local_server (fs : ServerFS) : Bool × ServerFS :=
  if fs.htmlExists then
    match fs.resultFile with
    | FileState.missing => (true, ⟨fs.htmlExists, FileState.valid []⟩)
    | _ => (true, fs)
  else
    (false, fs)

/-- The records kept by the dedup loop, with the set of already-seen keys
made explicit (the key list of `file_map`). -/
def keptRecs (seen : List String) : List Record → List Record
  | [] => []
  | item :: rest =>
      if dedupKey item ≠ "" ∧ dedupKey item ∉ seen then
        item :: keptRecs (seen ++ [dedupKey item]) rest
      else keptRecs seen rest

/-! ### The stable descending sort -/

theorem insertDesc_perm (r : Record) (l : List Record) :
    List.Perm (insertDesc r l) (r :: l) := by
  induction l with
  | nil => simp [insertDesc]
  | cons s rest ih =>
      by_cases h : timeKey s ≤ timeKey r
      · simp [insertDesc, h]
      · simp only [insertDesc, if_neg h]
        exact (ih.cons s).trans (List.Perm.swap r s rest)

theorem pySortDesc_perm (l : List Record) : List.Perm (pySortDesc l) l := by
  induction l with
  | nil => simp [pySortDesc]
  | cons r rest ih =>
      exact (insertDesc_perm r (pySortDesc rest)).trans (ih.cons r)

theorem mem_pySortDesc {r : Record} {l : List Record} :
    r ∈ pySortDesc l ↔ r ∈ l :=
  (pySortDesc_perm l).mem_iff

theorem pairwise_insertDesc {r : Record} {l : List Record}
    (h : l.Pairwise (fun a b => timeKey b ≤ timeKey a)) :
    (insertDesc r l).Pairwise (fun a b => timeKey b ≤ timeKey a) := by
  induction l with
  | nil => simp [insertDesc]
  | cons s rest ih =>
      rcases List.pairwise_cons.mp h with ⟨hs, hrest⟩
      by_cases hle : timeKey s ≤ timeKey r
      · simp only [insertDesc, if_pos hle]
        refine List.pairwise_cons.mpr ⟨?_, h⟩
        intro t ht
        rcases List.mem_cons.mp ht with rfl | ht
        · exact hle
        · exact le_trans (hs t ht) hle
      · simp only [insertDesc, if_neg hle]
        refine List.pairwise_cons.mpr ⟨?_, ih hrest⟩
        intro t ht
        rcases List.mem_cons.mp (((insertDesc_perm r rest).mem_iff).mp ht) with rfl | ht
        · exact le_of_not_le hle
        · exact hs t ht

theorem pySortDesc_pairwise (l : List Record) :
    (pySortDesc l).Pairwise (fun a b => timeKey b ≤ timeKey a) := by
  induction l with
  | nil => simp [pySortDesc]
  | cons r rest ih => exact pairwise_insertDesc ih

theorem pySortDesc_eq_of_pairwise {l : List Record}
    (h : l.Pairwise (fun a b => timeKey b ≤ timeKey a)) :
    pySortDesc l = l := by
  induction l with
  | nil => rfl
  | cons r rest ih =>
      rcases List.pairwise_cons.mp h with ⟨hr, hrest⟩
      rw [pySortDesc, ih hrest]
      cases rest with
      | nil => rfl
      | cons s rest' =>
          have : timeKey s ≤ timeKey r := hr s (List.mem_cons_self s rest')
          simp [insertDesc, this]

theorem insertDesc_filter_timeKey (k : Int) (r : Record) (l : List Record) :
    (insertDesc r l).filter (fun x => timeKey x == k) =
      (r :: l).filter (fun x => timeKey x == k) := by
  induction l with
  | nil => rfl
  | cons s rest ih =>
      by_cases hle : timeKey s ≤ timeKey r
      · simp only [insertDesc, if_pos hle]
      · simp only [insertDesc, if_neg hle]
        by_cases hs : timeKey s = k
        · have hr : ¬ timeKey r = k := fun hr => hle (le_of_eq (hs.trans hr.symm))
          simp [List.filter_cons, hs, hr, ih]
        · simp [List.filter_cons, hs, ih]

theorem pySortDesc_filter_timeKey (k : Int) (l : List Record) :
    (pySortDesc l).filter (fun x => timeKey x == k) =
      l.filter (fun x => timeKey x == k) := by
  induction l with
  | nil => rfl
  | cons r rest ih =>
      rw [pySortDesc, insertDesc_filter_timeKey]
      by_cases hr : timeKey r = k
      · simp [List.filter, hr, ih]
      · simp only [List.filter]
        rw [show (timeKey r == k) = false by simp [hr]]
        exact ih

/-! ### The dedup scan -/

theorem dedupScan_map_snd (l : List Record) :
    ∀ fileMap : List (String × Record),
      (dedupScan fileMap l).map Prod.snd =
        fileMap.map Prod.snd ++ keptRecs (fileMap.map Prod.fst) l := by
  induction l with
  | nil => intro fileMap; simp [dedupScan, keptRecs]
  | cons item rest ih =>
      intro fileMap
      by_cases hc : dedupKey item ≠ "" ∧ dedupKey item ∉ fileMap.map Prod.fst
      · rw [dedupScan, if_pos hc, keptRecs, if_pos hc, ih]
        simp
      · rw [dedupScan, if_neg hc, keptRecs, if_neg hc, ih]

theorem remove_eq_keptRecs (data : List Record) :
    remove_duplicate_files data = keptRecs [] (pySortDesc data) := by
  rw [remove_duplicate_files, dedupScan_map_snd]
  simp

theorem keptRecs_sublist (l : List Record) :
    ∀ seen, (keptRecs seen l).Sublist l := by
  induction l with
  | nil => intro seen; simp [keptRecs]
  | cons item rest ih =>
      intro seen
      by_cases hc : dedupKey item ≠ "" ∧ dedupKey item ∉ seen
      · rw [keptRecs, if_pos hc]
        exact (ih (seen ++ [dedupKey item])).cons₂ item
      · rw [keptRecs, if_neg hc]
        exact (ih seen).cons item

theorem keptRecs_key_props (l : List Record) :
    ∀ seen, (∀ r ∈ keptRecs seen l, dedupKey r ≠ "" ∧ dedupKey r ∉ seen) ∧
      ((keptRecs seen l).map dedupKey).Nodup := by
  induction l with
  | nil => intro seen; simp [keptRecs]
  | cons item rest ih =>
      intro seen
      by_cases hc : dedupKey item ≠ "" ∧ dedupKey item ∉ seen
      · rw [keptRecs, if_pos hc]
        obtain ⟨hmem, hnodup⟩ := ih (seen ++ [dedupKey item])
        constructor
        · intro r hr
          rcases List.mem_cons.mp hr with rfl | hr
          · exact hc
          · have := hmem r hr
            refine ⟨this.1, fun hs => this.2 ?_⟩
            exact List.mem_append.mpr (Or.inl hs)
        · rw [List.map_cons]
          refine List.nodup_cons.mpr ⟨?_, hnodup⟩
          intro hmemk
          rcases List.mem_map.mp hmemk with ⟨r, hr, hkr⟩
          exact (hmem r hr).2 (by rw [hkr]; simp)
      · rw [keptRecs, if_neg hc]
        exact ih seen

theorem mem_keptRecs {r : Record} (l : List Record) :
    ∀ seen, (r ∈ keptRecs seen l ↔
      dedupKey r ≠ "" ∧ dedupKey r ∉ seen ∧
        l.find? (fun s => dedupKey s == dedupKey r) = some r) := by
  induction l with
  | nil => intro seen; simp [keptRecs]
  | cons item rest ih =>
      intro seen
      by_cases hc : dedupKey item ≠ "" ∧ dedupKey item ∉ seen
      · rw [keptRecs, if_pos hc]
        by_cases h1 : dedupKey item = dedupKey r
        · rw [List.find?_cons_of_pos _ (by simp [h1])]
          by_cases h2 : item = r
          · subst h2
            simp only [List.mem_cons, true_or, true_iff]
            exact ⟨hc.1, hc.2, trivial⟩
          · constructor
            · intro hmem
              rcases List.mem_cons.mp hmem with rfl | hmem
              · exact absurd rfl h2
              · have := ((ih (seen ++ [dedupKey item])).mp hmem).2.1
                exact absurd (List.mem_append.mpr (Or.inr (by simp [h1]))) this
            · rintro ⟨-, -, heq⟩
              exact absurd (Option.some.inj heq) (fun h => h2 h)
        · rw [List.find?_cons_of_neg _ (by simp [h1])]
          have h2 : item ≠ r := fun h => h1 (by rw [h])
          rw [List.mem_cons]
          constructor
          · rintro (rfl | hmem)
            · exact absurd rfl h2
            · have := (ih (seen ++ [dedupKey item])).mp hmem
              refine ⟨this.1, fun hs => this.2.1 (List.mem_append.mpr (Or.inl hs)), this.2.2⟩
          · rintro ⟨hne, hnseen, hfind⟩
            refine Or.inr ((ih (seen ++ [dedupKey item])).mpr ⟨hne, ?_, hfind⟩)
            intro hmem
            rcases List.mem_append.mp hmem with hs | hs
            · exact hnseen hs
            · exact h1 ((List.mem_singleton.mp hs).symm)
      · rw [keptRecs, if_neg hc]
        rcases not_and_or.mp hc with hk | hk
        · have hk : dedupKey item = "" := not_not.mp hk
          by_cases h1 : dedupKey item = dedupKey r
          · constructor
            · intro hmem
              have := ((ih seen).mp hmem).1
              exact absurd (h1.symm.trans hk) this
            · rintro ⟨hne, -, -⟩
              exact absurd (h1.symm.trans hk) hne
          · rw [List.find?_cons_of_neg _ (by simp [h1])]
            exact ih seen
        · have hk : dedupKey item ∈ seen := not_not.mp hk
          by_cases h1 : dedupKey item = dedupKey r
          · constructor
            · intro hmem
              have := ((ih seen).mp hmem).2.1
              exact absurd (h1 ▸ hk) this
            · rintro ⟨-, hnseen, -⟩
              exact absurd (h1 ▸ hk) hnseen
          · rw [List.find?_cons_of_neg _ (by simp [h1])]
            exact ih seen

/-! ### Generic facts about `List.find?` -/

theorem find?_of_pairwise {α : Type} {R : α → α → Prop} {p : α → Bool} {r : α} :
    ∀ {l : List α}, l.Pairwise R → l.find? p = some r →
      ∀ s ∈ l, p s = true → r = s ∨ R r s := by
  intro l
  induction l with
  | nil => intro _ hf; simp [List.find?] at hf
  | cons a rest ih =>
      intro hp hf s hs hps
      rcases List.pairwise_cons.mp hp with ⟨ha, hrest⟩
      by_cases hpa : p a = true
      · rw [List.find?_cons_of_pos _ hpa] at hf
        obtain rfl : r = a := (Option.some.inj hf).symm
        rcases List.mem_cons.mp hs with rfl | hs
        · exact Or.inl rfl
        · exact Or.inr (ha s hs)
      · rw [List.find?_cons_of_neg _ (by simpa using hpa)] at hf
        rcases List.mem_cons.mp hs with rfl | hs
        · exact absurd hps hpa
        · exact ih hrest hf s hs hps

theorem find?_filter_of_find? {α : Type} {p q : α → Bool} {r : α} :
    ∀ {l : List α}, l.find? p = some r → q r = true →
      (l.filter q).find? p = some r := by
  intro l
  induction l with
  | nil => intro hf; simp [List.find?] at hf
  | cons a rest ih =>
      intro hf hq
      by_cases hpa : p a = true
      · rw [List.find?_cons_of_pos _ hpa] at hf
        obtain rfl : r = a := (Option.some.inj hf).symm
        rw [List.filter_cons, if_pos hq]
        exact List.find?_cons_of_pos _ hpa
      · rw [List.find?_cons_of_neg _ (by simpa using hpa)] at hf
        rw [List.filter_cons]
        by_cases hqa : q a = true
        · rw [if_pos hqa]
          rw [List.find?_cons_of_neg _ (by simpa using hpa)]
          exact ih hf hq
        · rw [if_neg hqa]
          exact ih hf hq

theorem filter_find? {α : Type} (p q : α → Bool) :
    ∀ l : List α, (l.filter q).find? p = l.find? (fun x => q x && p x) := by
  intro l
  induction l with
  | nil => rfl
  | cons a rest ih =>
      rw [List.filter_cons]
      by_cases hqa : q a = true
      · rw [if_pos hqa]
        by_cases hpa : p a = true
        · rw [List.find?_cons_of_pos _ hpa,
            List.find?_cons_of_pos _ (by simp [hqa, hpa])]
        · rw [List.find?_cons_of_neg _ (by simpa using hpa),
            List.find?_cons_of_neg _ (by simp [hpa]), ih]
      · rw [if_neg hqa]
        rw [List.find?_cons_of_neg _ (by simp [hqa]), ih]

/-! ### Characterization of the records kept by `remove_duplicate_files` -/

/-- `r` is the record the cleanup keeps for its identity: a truthy key, a
maximal processing time among records sharing the key, and `r` is the first
record of the input carrying both that key and that maximal time. -/
def isFinal (data : List Record) (r : Record) : Prop :=
  dedupKey r ≠ "" ∧
    (∀ s ∈ data, dedupKey s = dedupKey r → timeKey s ≤ timeKey r) ∧
    data.find? (fun s => timeKey s == timeKey r && dedupKey s == dedupKey r) = some r

theorem find?_key_of_find?_both {r : Record} :
    ∀ {l : List Record},
      l.Pairwise (fun a b => timeKey b ≤ timeKey a) →
      (∀ s ∈ l, dedupKey s = dedupKey r → timeKey s ≤ timeKey r) →
      l.find? (fun s => timeKey s == timeKey r && dedupKey s == dedupKey r) = some r →
      l.find? (fun s => dedupKey s == dedupKey r) = some r := by
  intro l
  induction l with
  | nil => intro _ _ hf; simp [List.find?] at hf
  | cons x rest ih =>
      intro hp hmax hf
      rcases List.pairwise_cons.mp hp with ⟨hx, hrest⟩
      by_cases hk : dedupKey x = dedupKey r
      · have hxle : timeKey x ≤ timeKey r := hmax x (List.mem_cons_self x rest) hk
        by_cases ht : timeKey x = timeKey r
        · rw [List.find?_cons_of_pos _ (by simp [hk, ht])] at hf
          obtain rfl : x = r := Option.some.inj hf
          exact List.find?_cons_of_pos _ (by simp)
        · rw [List.find?_cons_of_neg _ (by simp [ht])] at hf
          have hrmem : r ∈ rest := List.mem_of_find?_eq_some hf
          have : timeKey r ≤ timeKey x := hx r hrmem
          exact absurd (le_antisymm hxle this) ht
      · rw [List.find?_cons_of_neg _ (by simp [hk])] at hf
        rw [List.find?_cons_of_neg _ (by simp [hk])]
        exact ih hrest (fun s hs => hmax s (List.mem_cons_of_mem x hs)) hf

theorem mem_remove_duplicate_files_iff {data : List Record} {r : Record} :
    r ∈ remove_duplicate_files data ↔ isFinal data r := by
  rw [remove_eq_keptRecs, mem_keptRecs]
  constructor
  · rintro ⟨hne, -, hfind⟩
    have hpair := pySortDesc_pairwise data
    have hmax : ∀ s ∈ data, dedupKey s = dedupKey r → timeKey s ≤ timeKey r := by
      intro s hs hks
      rcases find?_of_pairwise hpair hfind s (mem_pySortDesc.mpr hs) (by simp [hks])
        with rfl | hlt
      · exact le_refl _
      · exact hlt
    refine ⟨hne, hmax, ?_⟩
    have h1 : ((pySortDesc data).filter (fun x => timeKey x == timeKey r)).find?
        (fun s => dedupKey s == dedupKey r) = some r :=
      find?_filter_of_find? hfind (by simp)
    rw [pySortDesc_filter_timeKey, filter_find?] at h1
    exact h1
  · rintro ⟨hne, hmax, hfind⟩
    refine ⟨hne, by simp, ?_⟩
    have h1 : (data.filter (fun x => timeKey x == timeKey r)).find?
        (fun s => dedupKey s == dedupKey r) = some r := by
      rw [filter_find?]
      exact hfind
    rw [← pySortDesc_filter_timeKey, filter_find?] at h1
    refine find?_key_of_find?_both (pySortDesc_pairwise data) ?_ h1
    intro s hs
    exact hmax s (mem_pySortDesc.mp hs)

theorem length_filter_key_le_one {l : List Record}
    (h : (l.map dedupKey).Nodup) (k : String) :
    (l.filter (fun x => dedupKey x == k)).length ≤ 1 := by
  induction l with
  | nil => simp
  | cons a rest ih =>
      rw [List.map_cons, List.nodup_cons] at h
      rw [List.filter_cons]
      by_cases ha : dedupKey a == k
      · rw [if_pos ha]
        have hres : rest.filter (fun x => dedupKey x == k) = [] := by
          refine List.filter_eq_nil_iff.mpr ?_
          intro x hx hpx
          have h1 : dedupKey x = k := by simpa using hpx
          have h2 : dedupKey a = k := by simpa using ha
          exact h.1 (h2 ▸ h1 ▸ List.mem_map_of_mem dedupKey hx)
        simp [hres]
      · rw [if_neg ha]
        exact ih h.2

theorem keptRecs_eq_self (l : List Record) :
    ∀ seen, (∀ r ∈ l, dedupKey r ≠ "") → ((l.map dedupKey).Nodup) →
      (∀ r ∈ l, dedupKey r ∉ seen) → keptRecs seen l = l := by
  induction l with
  | nil => intro seen _ _ _; rfl
  | cons item rest ih =>
      intro seen hne hnodup hseen
      rw [List.map_cons, List.nodup_cons] at hnodup
      have hc : dedupKey item ≠ "" ∧ dedupKey item ∉ seen :=
        ⟨hne item (List.mem_cons_self item rest),
          hseen item (List.mem_cons_self item rest)⟩
      rw [keptRecs, if_pos hc]
      congr 1
      refine ih _ (fun r hr => hne r (List.mem_cons_of_mem item hr)) hnodup.2 ?_
      intro r hr hmem
      rcases List.mem_append.mp hmem with hs | hs
      · exact hseen r (List.mem_cons_of_mem item hr) hs
      · exact hnodup.1 ((List.mem_singleton.mp hs) ▸ List.mem_map_of_mem dedupKey hr)

/-- **C1.** The collection returned by `remove_duplicate_files` holds at most
one record per deduplication key, every returned record comes from the
input, and it carries the maximum processing time among input records
sharing its key. -/
theorem remove_duplicate_files_one_latest_per_identity (data : List Record) :
    (∀ k : String,
      ((remove_duplicate_files data).filter (fun r => dedupKey r == k)).length ≤ 1) ∧
    ∀ r ∈ remove_duplicate_files data,
      r ∈ data ∧ ∀ s ∈ data, dedupKey s = dedupKey r → timeKey s ≤ timeKey r := by
  constructor
  · intro k
    rw [remove_eq_keptRecs]
    exact length_filter_key_le_one ((keptRecs_key_props (pySortDesc data) []).2) k
  · intro r hr
    obtain ⟨hne, hmax, hfind⟩ := mem_remove_duplicate_files_iff.mp hr
    exact ⟨List.mem_of_find?_eq_some hfind, hmax⟩

/-- **C1 witness.** On a two-record collection with a shared file name, the
kept record is the later one and it dominates the earlier one's time. -/
theorem remove_duplicate_files_one_latest_per_identity_witness :
    ((⟨some "a", none, some 2, 1⟩ : Record) ∈
        remove_duplicate_files
          [⟨some "a", none, some 1, 0⟩, ⟨some "a", none, some 2, 1⟩]) ∧
      timeKey (⟨some "a", none, some 1, 0⟩ : Record) ≤
        timeKey (⟨some "a", none, some 2, 1⟩ : Record) := by
  refine ⟨by decide, ?_⟩
  exact ((remove_duplicate_files_one_latest_per_identity
      [⟨some "a", none, some 1, 0⟩, ⟨some "a", none, some 2, 1⟩]).2
    ⟨some "a", none, some 2, 1⟩ (by decide)).2
    ⟨some "a", none, some 1, 0⟩ (by decide) (by decide)

/-- **C2.** `remove_duplicate_files` is idempotent. -/
theorem remove_duplicate_files_idempotent (data : List Record) :
    remove_duplicate_files (remove_duplicate_files data) =
      remove_duplicate_files data := by
  have hout : remove_duplicate_files data = keptRecs [] (pySortDesc data) :=
    remove_eq_keptRecs data
  have hpair : (remove_duplicate_files data).Pairwise
      (fun a b => timeKey b ≤ timeKey a) := by
    rw [hout]
    exact (pySortDesc_pairwise data).sublist (keptRecs_sublist (pySortDesc data) [])
  have hsort : pySortDesc (remove_duplicate_files data) =
      remove_duplicate_files data := pySortDesc_eq_of_pairwise hpair
  rw [remove_eq_keptRecs (remove_duplicate_files data), hsort]
  refine keptRecs_eq_self _ [] ?_ ?_ (by simp)
  · intro r hr
    exact (mem_remove_duplicate_files_iff.mp hr).1
  · rw [hout]
    exact (keptRecs_key_props (pySortDesc data) []).2

/-- **C4.** The deduplication identity is the file-name field whenever it is
present and non-empty (the title is ignored even when present and
different); the title field is the key only when the file name is absent or
empty.  Two records sharing a non-empty file name collapse to one. -/
theorem dedup_identity_fileName_primary :
    (∀ (r : Record) (s : String), r.fileName = some s → s ≠ "" → dedupKey r = s) ∧
    (∀ r : Record, r.fileName = none ∨ r.fileName = some "" →
      dedupKey r = r.title.getD "") ∧
    (∀ (r1 r2 : Record) (s : String), r1.fileName = some s → r2.fileName = some s →
      s ≠ "" → (remove_duplicate_files [r1, r2]).length = 1) := by
  refine ⟨?_, ?_, ?_⟩
  · intro r s h hs
    simp [dedupKey, h, hs]
  · rintro r (h | h) <;> simp [dedupKey, h]
  · intro r1 r2 s h1 h2 hs
    have hk1 : dedupKey r1 = s := by simp [dedupKey, h1, hs]
    have hk2 : dedupKey r2 = s := by simp [dedupKey, h2, hs]
    rw [remove_eq_keptRecs]
    have hpair : pySortDesc [r1, r2] = insertDesc r1 [r2] := by
      simp [pySortDesc, insertDesc]
    by_cases hle : timeKey r2 ≤ timeKey r1
    · rw [hpair]
      simp [insertDesc, hle, keptRecs, hk1, hk2, hs]
    · rw [hpair]
      simp [insertDesc, hle, keptRecs, hk1, hk2, hs]

/-- **C4 witness.** A record with file name `"n"` and title `"t"` is keyed
by `"n"`; with the file name absent it is keyed by the title. -/
theorem dedup_identity_fileName_primary_witness :
    dedupKey ⟨some "n", some "t", none, 0⟩ = "n" ∧
      dedupKey ⟨none, some "t", none, 0⟩ = "t" ∧
      (remove_duplicate_files
        [⟨some "n", some "t", some 1, 0⟩, ⟨some "n", some "u", some 2, 1⟩]).length = 1 := by
  refine ⟨?_, ?_, ?_⟩
  · exact dedup_identity_fileName_primary.1 ⟨some "n", some "t", none, 0⟩ "n" rfl
      (by decide)
  · exact dedup_identity_fileName_primary.2.1 ⟨none, some "t", none, 0⟩ (Or.inl rfl)
  · exact dedup_identity_fileName_primary.2.2 ⟨some "n", some "t", some 1, 0⟩
      ⟨some "n", some "u", some 2, 1⟩ "n" rfl rfl (by decide)

/-- **C5.** When the persisted file cannot be parsed, `handle_clean_duplicates`
reports failure and leaves the file exactly as it was; in general every call
either succeeds or leaves the stored state unchanged. -/
theorem handle_clean_duplicates_parse_failure_safe :
    (∀ raw : String,
      (handle_clean_duplicates (FileState.invalid raw)).2.success = false ∧
      (handle_clean_duplicates (FileState.invalid raw)).1 = FileState.invalid raw) ∧
    (∀ fs : FileState,
      (handle_clean_duplicates fs).2.success = true ∨
        (handle_clean_duplicates fs).1 = fs) := by
  constructor
  · intro raw
    exact ⟨rfl, rfl⟩
  · intro fs
    cases fs with
    | missing => exact Or.inr rfl
    | invalid raw => exact Or.inr rfl
    | valid data => exact Or.inl rfl

/-- **C7.** The counts reported by a successful clean are the loaded size,
the deduplicated size, and their difference; the deduplicated collection is
never larger than the loaded one, so the difference is a genuine count. -/
theorem handle_clean_duplicates_counts (data : List Record) :
    (handle_clean_duplicates (FileState.valid data)).2.original_count =
      some data.length ∧
    (handle_clean_duplicates (FileState.valid data)).2.cleaned_count =
      some (remove_duplicate_files data).length ∧
    (handle_clean_duplicates (FileState.valid data)).2.removed_count =
      some ((data.length : Int) - ((remove_duplicate_files data).length : Int)) ∧
    (remove_duplicate_files data).length ≤ data.length := by
  refine ⟨rfl, rfl, rfl, ?_⟩
  rw [remove_eq_keptRecs]
  calc (keptRecs [] (pySortDesc data)).length
      ≤ (pySortDesc data).length := (keptRecs_sublist (pySortDesc data) []).length_le
    _ = data.length := (pySortDesc_perm data).length_eq

/-- **C8.** A record whose file-name and title fields are both absent or
empty is dropped by `remove_duplicate_files` from every collection — even a
collection where it is the only record, where it is still counted in the
removed count although it duplicates nothing. -/
theorem remove_duplicate_files_discards_identityless (r : Record)
    (hf : r.fileName = none ∨ r.fileName = some "")
    (ht : r.title = none ∨ r.title = some "") :
    (∀ data : List Record, r ∉ remove_duplicate_files data) ∧
    remove_duplicate_files [r] = [] ∧
    (handle_clean_duplicates (FileState.valid [r])).2.removed_count = some 1 := by
  have hkey : dedupKey r = "" := by
    rcases hf with hf | hf <;> rcases ht with ht | ht <;> simp [dedupKey, hf, ht]
  have hsingle : remove_duplicate_files [r] = [] := by
    rw [remove_eq_keptRecs]
    have : pySortDesc [r] = [r] := by simp [pySortDesc, insertDesc]
    rw [this]
    simp [keptRecs, hkey]
  refine ⟨?_, hsingle, ?_⟩
  · intro data hmem
    exact (mem_remove_duplicate_files_iff.mp hmem).1 hkey
  · simp [handle_clean_duplicates, hsingle]

/-- **C8 witness.** A concrete identityless record is removed from the
singleton collection and reported as one removed record. -/
theorem remove_duplicate_files_discards_identityless_witness :
    ((⟨none, none, some 3, 7⟩ : Record) ∉
        remove_duplicate_files [⟨none, none, some 3, 7⟩]) ∧
      remove_duplicate_files [(⟨none, none, some 3, 7⟩ : Record)] = [] ∧
      (handle_clean_duplicates
        (FileState.valid [(⟨none, none, some 3, 7⟩ : Record)])).2.removed_count =
        some 1 := by
  have h := remove_duplicate_files_discards_identityless ⟨none, none, some 3, 7⟩
    (Or.inl rfl) (Or.inl rfl)
  exact ⟨h.1 _, h.2.1, h.2.2⟩

/-- **C9.** A record with no `处理时间` field sorts with the epoch key `0`
(the `1970-01-01 00:00:00` default); a record with a strictly later
timestamp and the same identity therefore beats it: the dated record is the
one kept and the undated one is never in the output. -/
theorem missing_time_ordered_as_epoch (r s : Record) (data : List Record) (t : Int)
    (hk : dedupKey s = dedupKey r) (hne : dedupKey r ≠ "")
    (hrt : r.time = some t) (hpos : 0 < t) (hst : s.time = none)
    (hrd : r ∈ data) (hsd : s ∈ data) :
    timeKey s = 0 ∧ s ∉ remove_duplicate_files data ∧
      remove_duplicate_files [s, r] = [r] := by
  have htr : timeKey r = t := by simp [timeKey, hrt]
  have hts : timeKey s = 0 := by simp [timeKey, hst]
  refine ⟨hts, ?_, ?_⟩
  · intro hmem
    obtain ⟨-, hmax, -⟩ := mem_remove_duplicate_files_iff.mp hmem
    have := hmax r hrd (hk ▸ rfl)
    rw [htr, hts] at this
    exact absurd this (not_le.mpr hpos)
  · rw [remove_eq_keptRecs]
    have hsort : pySortDesc [s, r] = [r, s] := by
      have hnle : ¬ timeKey r ≤ timeKey s := by
        rw [htr, hts]; exact not_le.mpr hpos
      simp [pySortDesc, insertDesc, hnle]
    rw [hsort]
    simp [keptRecs, hne, hk]

/-- **C9 witness.** With file name `"f"`, the dated record (time 5) wins
over the undated one. -/
theorem missing_time_ordered_as_epoch_witness :
    remove_duplicate_files
        [⟨some "f", none, none, 1⟩, ⟨some "f", none, some 5, 0⟩] =
      [⟨some "f", none, some 5, 0⟩] :=
  (missing_time_ordered_as_epoch ⟨some "f", none, some 5, 0⟩
    ⟨some "f", none, none, 1⟩
    [⟨some "f", none, none, 1⟩, ⟨some "f", none, some 5, 0⟩] 5
    rfl (by decide) rfl (by decide) rfl (by decide) (by decide)).2.2

/-- **C10.** With the viewer HTML present and the result file absent,
`start_local_server` serves after creating the file with the empty list, so
a subsequent load returns `[]`; the clean-duplicates handler called on the
absent file instead fails and does not create it. -/
theorem start_local_server_creates_empty_store (fs : ServerFS)
    (hhtml : fs.htmlExists = true) (hmiss : fs.resultFile = FileState.missing) :
    start_local_server fs = (true, ⟨true, FileState.valid []⟩) ∧
    loadAll (start_local_server fs).2.resultFile = Except.ok [] ∧
    (handle_clean_duplicates FileState.missing).2.success = false ∧
    (handle_clean_duplicates FileState.missing).1 = FileState.missing := by
  obtain ⟨h, f⟩ := fs
  simp only at hhtml hmiss
  subst hhtml
  subst hmiss
  exact ⟨rfl, rfl, rfl, rfl⟩

/-- **C10 witness.** The concrete startup state with the HTML file present
and the result file absent. -/
theorem start_local_server_creates_empty_store_witness :
    start_local_server ⟨true, FileState.missing⟩ =
        (true, ⟨true, FileState.valid []⟩) ∧
      loadAll (start_local_server ⟨true, FileState.missing⟩).2.resultFile =
        Except.ok [] :=
  ⟨(start_local_server_creates_empty_store ⟨true, FileState.missing⟩ rfl rfl).1,
    (start_local_server_creates_empty_store ⟨true, FileState.missing⟩ rfl rfl).2.1⟩

/-! ### The incremental last-write-wins merge (specification model)

The repository documents an incremental `merge` for the Result Store but the
cleanup script only ships the batch pass, so the merge is modelled from the
specification (§4.3). -/

/-- Modelled from the spec: `merge(record)` of the Result Store, whose
implementation is not part of the viewer script.  "Records are deduplicated
by identity (file name, falling back to title).  On merge, if an existing
record shares the identity, the one with the later processing timestamp
wins; the loser is discarded entirely" — replacement is atomic per
record. -/
def merge (store : List Record) (r : Record) : List Record :=
  if ∃ s ∈ store, dedupKey s = dedupKey r then
    store.map (fun s => if dedupKey s = dedupKey r ∧ timeKey s < timeKey r then r else s)
  else store ++ [r]

/-- Stable ascending insertion by `timeKey` (mirror of `insertDesc`). -/
def insertAsc (r : Record) : List Record → List Record
  | [] => [r]
  | s :: rest => if timeKey r ≤ timeKey s then r :: s :: rest else s :: insertAsc r rest

/-- The stable ascending sort by `timeKey`: the processing-timestamp order
in which the records of a collection are merged one by one. -/
def pySortAsc : List Record → List Record
  | [] => []
  | r :: rest => insertAsc r (pySortAsc rest)

/-- Modelled from the spec: "repeatedly applying `merge` in timestamp
order" — fold the incremental merge over the collection sorted by ascending
processing timestamp, starting from an empty store. -/
def mergeAllByTime (data : List Record) : List Record :=
  (pySortAsc data).foldl merge []

theorem insertAsc_perm (r : Record) (l : List Record) :
    List.Perm (insertAsc r l) (r :: l) := by
  induction l with
  | nil => simp [insertAsc]
  | cons s rest ih =>
      by_cases h : timeKey r ≤ timeKey s
      · simp [insertAsc, h]
      · simp only [insertAsc, if_neg h]
        exact (ih.cons s).trans (List.Perm.swap r s rest)

theorem pySortAsc_perm (l : List Record) : List.Perm (pySortAsc l) l := by
  induction l with
  | nil => simp [pySortAsc]
  | cons r rest ih =>
      exact (insertAsc_perm r (pySortAsc rest)).trans (ih.cons r)

theorem mem_pySortAsc {r : Record} {l : List Record} :
    r ∈ pySortAsc l ↔ r ∈ l :=
  (pySortAsc_perm l).mem_iff

theorem insertAsc_filter_timeKey (k : Int) (r : Record) (l : List Record) :
    (insertAsc r l).filter (fun x => timeKey x == k) =
      (r :: l).filter (fun x => timeKey x == k) := by
  induction l with
  | nil => rfl
  | cons s rest ih =>
      by_cases hle : timeKey r ≤ timeKey s
      · simp only [insertAsc, if_pos hle]
      · simp only [insertAsc, if_neg hle]
        by_cases hs : timeKey s = k
        · have hr : ¬ timeKey r = k := fun hr => hle (le_of_eq (hs.trans hr.symm).symm)
          simp [List.filter_cons, hs, hr, ih]
        · simp [List.filter_cons, hs, ih]

theorem pySortAsc_filter_timeKey (k : Int) (l : List Record) :
    (pySortAsc l).filter (fun x => timeKey x == k) =
      l.filter (fun x => timeKey x == k) := by
  induction l with
  | nil => rfl
  | cons r rest ih =>
      rw [pySortAsc, insertAsc_filter_timeKey]
      by_cases hr : timeKey r = k
      · simp [List.filter_cons, hr, ih]
      · simp only [List.filter_cons]
        rw [show (timeKey r == k) = false by simp [hr]]
        exact ih

/-- The per-identity holder left by folding `merge` over a record stream:
the running record for key `k`, replaced exactly when a strictly later
timestamp for the same key arrives. -/
def hFold (init : Option Record) (k : String) : List Record → Option Record
  | [] => init
  | s :: rest =>
      if dedupKey s = k then
        match init with
        | none => hFold (some s) k rest
        | some c =>
            if timeKey c < timeKey s then hFold (some s) k rest
            else hFold (some c) k rest
      else hFold init k rest

theorem find?_append_cases {α : Type} (p : α → Bool) :
    ∀ l1 l2 : List α, (l1 ++ l2).find? p =
      match l1.find? p with
      | some a => some a
      | none => l2.find? p := by
  intro l1 l2
  induction l1 with
  | nil => simp
  | cons a rest ih =>
      by_cases hpa : p a = true
      · rw [List.cons_append, List.find?_cons_of_pos _ hpa,
          List.find?_cons_of_pos _ hpa]
      · rw [List.cons_append, List.find?_cons_of_neg _ (by simpa using hpa),
          List.find?_cons_of_neg _ (by simpa using hpa), ih]

theorem find?_map_key_preserved {f : Record → Record}
    (hf : ∀ s, dedupKey (f s) = dedupKey s) (k : String) :
    ∀ l : List Record, (l.map f).find? (fun s => dedupKey s == k) =
      Option.map f (l.find? (fun s => dedupKey s == k)) := by
  intro l
  induction l with
  | nil => rfl
  | cons a rest ih =>
      by_cases ha : dedupKey a = k
      · rw [List.map_cons, List.find?_cons_of_pos _ (by simp [hf, ha]),
          List.find?_cons_of_pos _ (by simp [ha])]
        rfl
      · rw [List.map_cons, List.find?_cons_of_neg _ (by simp [hf, ha]),
          List.find?_cons_of_neg _ (by simp [ha]), ih]

theorem find?_key_eq_none_of_not_exists {store : List Record} {k : String}
    (h : ¬ ∃ s ∈ store, dedupKey s = k) :
    store.find? (fun s => dedupKey s == k) = none := by
  rw [List.find?_eq_none]
  intro x hx
  simp only [beq_iff_eq]
  exact fun hk => h ⟨x, hx, hk⟩

theorem find?_key_isSome_of_exists {store : List Record} {k : String}
    (h : ∃ s ∈ store, dedupKey s = k) :
    ∃ c, store.find? (fun s => dedupKey s == k) = some c := by
  obtain ⟨s, hs, hk⟩ := h
  have : (store.find? (fun s => dedupKey s == k)).isSome := by
    rw [List.find?_isSome]
    exact ⟨s, hs, by simp [hk]⟩
  exact Option.isSome_iff_exists.mp this

theorem merge_map_dedupKey (store : List Record) (x : Record) :
    (merge store x).map dedupKey = store.map dedupKey ∨
      (merge store x).map dedupKey = store.map dedupKey ++ [dedupKey x] := by
  by_cases hex : ∃ s ∈ store, dedupKey s = dedupKey x
  · left
    rw [merge, if_pos hex, List.map_map]
    refine List.map_congr_left ?_
    intro s hs
    by_cases hc : dedupKey s = dedupKey x ∧ timeKey s < timeKey x
    · simp [hc, hc.1]
    · simp [hc]
  · right
    rw [merge, if_neg hex]
    simp

theorem merge_nodup_keys {store : List Record} {x : Record}
    (h : (store.map dedupKey).Nodup) :
    ((merge store x).map dedupKey).Nodup := by
  rcases merge_map_dedupKey store x with heq | heq
  · rw [heq]; exact h
  · rw [heq]
    by_cases hex : ∃ s ∈ store, dedupKey s = dedupKey x
    · exfalso
      rw [merge, if_pos hex] at heq
      have := congrArg List.length heq
      simp at this
    · refine List.Nodup.append h (List.nodup_singleton _) ?_
      intro a ha hb
      rw [List.mem_singleton] at hb
      subst hb
      rcases List.mem_map.mp ha with ⟨s, hs, hks⟩
      exact hex ⟨s, hs, hks⟩

theorem merge_find?_same (store : List Record) (x : Record) :
    (merge store x).find? (fun s => dedupKey s == dedupKey x) =
      match store.find? (fun s => dedupKey s == dedupKey x) with
      | none => some x
      | some c => some (if timeKey c < timeKey x then x else c) := by
  by_cases hex : ∃ s ∈ store, dedupKey s = dedupKey x
  · rw [merge, if_pos hex]
    have hf : ∀ s : Record,
        dedupKey (if dedupKey s = dedupKey x ∧ timeKey s < timeKey x then x else s) =
          dedupKey s := by
      intro s
      by_cases hc : dedupKey s = dedupKey x ∧ timeKey s < timeKey x
      · simp [hc, hc.1]
      · simp [hc]
    rw [find?_map_key_preserved hf]
    obtain ⟨c, hc⟩ := find?_key_isSome_of_exists hex
    rw [hc]
    have hkc : dedupKey c = dedupKey x := by
      have := List.find?_some hc
      simpa using this
    by_cases ht : timeKey c < timeKey x
    · simp [Option.map, hkc, ht]
    · simp [Option.map, hkc, ht]
  · rw [merge, if_neg hex, find?_append_cases, find?_key_eq_none_of_not_exists hex]
    rw [List.find?_cons_of_pos _ (by simp)]

theorem merge_find?_other (store : List Record) (x : Record) {k : String}
    (hk : k ≠ dedupKey x) :
    (merge store x).find? (fun s => dedupKey s == k) =
      store.find? (fun s => dedupKey s == k) := by
  by_cases hex : ∃ s ∈ store, dedupKey s = dedupKey x
  · rw [merge, if_pos hex]
    have hf : ∀ s : Record,
        dedupKey (if dedupKey s = dedupKey x ∧ timeKey s < timeKey x then x else s) =
          dedupKey s := by
      intro s
      by_cases hc : dedupKey s = dedupKey x ∧ timeKey s < timeKey x
      · simp [hc, hc.1]
      · simp [hc]
    rw [find?_map_key_preserved hf]
    cases hcase : store.find? (fun s => dedupKey s == k) with
    | none => rfl
    | some c =>
        have hkc : dedupKey c = k := by
          have := List.find?_some hcase
          simpa using this
        have : ¬ (dedupKey c = dedupKey x ∧ timeKey c < timeKey x) := by
          rintro ⟨hcx, -⟩
          exact hk (hkc ▸ hcx)
        simp [Option.map, this]
  · rw [merge, if_neg hex, find?_append_cases]
    cases hcase : store.find? (fun s => dedupKey s == k) with
    | none =>
        rw [List.find?_cons_of_neg _ (by simp; exact fun h => hk h.symm), List.find?_nil]
    | some c => rfl

theorem foldl_merge_props (l : List Record) :
    ∀ store : List Record, (store.map dedupKey).Nodup →
      ((l.foldl merge store).map dedupKey).Nodup ∧
      ∀ k : String, (l.foldl merge store).find? (fun s => dedupKey s == k) =
        hFold (store.find? (fun s => dedupKey s == k)) k l := by
  induction l with
  | nil => intro store h; exact ⟨h, fun k => rfl⟩
  | cons x rest ih =>
      intro store h
      obtain ⟨h1, h2⟩ := ih (merge store x) (merge_nodup_keys h)
      rw [List.foldl_cons]
      refine ⟨h1, ?_⟩
      intro k
      rw [h2 k]
      by_cases hkx : dedupKey x = k
      · subst hkx
        rw [merge_find?_same]
        cases hcase : store.find? (fun s => dedupKey s == dedupKey x) with
        | none => simp only [hFold, eq_self_iff_true, if_true]
        | some c =>
            by_cases ht : timeKey c < timeKey x
            · simp only [hFold, eq_self_iff_true, if_true, if_pos ht]
            · simp only [hFold, eq_self_iff_true, if_true, if_neg ht]
      · rw [merge_find?_other store x (fun h => hkx h.symm)]
        simp only [hFold, if_neg hkx]

theorem mem_store_iff_find? {r : Record} :
    ∀ {store : List Record}, (store.map dedupKey).Nodup →
      (r ∈ store ↔ store.find? (fun s => dedupKey s == dedupKey r) = some r) := by
  intro store
  induction store with
  | nil => intro _; simp
  | cons a rest ih =>
      intro h
      rw [List.map_cons, List.nodup_cons] at h
      by_cases ha : dedupKey a = dedupKey r
      · rw [List.find?_cons_of_pos _ (by simp [ha])]
        constructor
        · intro hmem
          rcases List.mem_cons.mp hmem with rfl | hmem
          · rfl
          · exact absurd (by rw [ha]; exact List.mem_map_of_mem dedupKey hmem) h.1
        · intro heq
          exact (Option.some.inj heq) ▸ List.mem_cons_self a rest
      · rw [List.find?_cons_of_neg _ (by simp [ha]), List.mem_cons]
        constructor
        · rintro (rfl | hmem)
          · exact absurd rfl ha
          · exact (ih h.2).mp hmem
        · intro hf
          exact Or.inr ((ih h.2).mpr hf)

theorem max_cons_iff {x r : Record} {rest : List Record} {k : String}
    (hkx : dedupKey x = k) :
    (∀ s ∈ x :: rest, dedupKey s = k → timeKey s ≤ timeKey r) ↔
      (timeKey x ≤ timeKey r ∧
        ∀ s ∈ rest, dedupKey s = k → timeKey s ≤ timeKey r) := by
  constructor
  · intro h
    exact ⟨h x (List.mem_cons_self x rest) hkx,
      fun s hs hks => h s (List.mem_cons_of_mem x hs) hks⟩
  · rintro ⟨h1, h2⟩ s hs hks
    rcases List.mem_cons.mp hs with rfl | hs
    · exact h1
    · exact h2 s hs hks

theorem max_cons_iff_of_ne {x r : Record} {rest : List Record} {k : String}
    (hkx : dedupKey x ≠ k) :
    (∀ s ∈ x :: rest, dedupKey s = k → timeKey s ≤ timeKey r) ↔
      (∀ s ∈ rest, dedupKey s = k → timeKey s ≤ timeKey r) := by
  constructor
  · intro h s hs hks
    exact h s (List.mem_cons_of_mem x hs) hks
  · intro h s hs hks
    rcases List.mem_cons.mp hs with rfl | hs
    · exact absurd hks hkx
    · exact h s hs hks

theorem hFold_eq_some_iff (k : String) (r : Record) :
    ∀ (l : List Record) (init : Option Record),
      (hFold init k l = some r ↔
        ((init = some r ∧ ∀ s ∈ l, dedupKey s = k → timeKey s ≤ timeKey r) ∨
         (dedupKey r = k ∧ (∀ c, init = some c → timeKey c < timeKey r) ∧
          (∀ s ∈ l, dedupKey s = k → timeKey s ≤ timeKey r) ∧
          l.find? (fun s => timeKey s == timeKey r && dedupKey s == k) = some r))) := by
  intro l
  induction l with
  | nil =>
      intro init
      simp only [hFold, List.find?_nil, List.not_mem_nil]
      constructor
      · intro h
        exact Or.inl ⟨h, by intro s hs; exact absurd hs (by simp)⟩
      · rintro (⟨h, -⟩ | ⟨-, -, -, h⟩)
        · exact h
        · exact absurd h (by simp)
  | cons x rest ih =>
      intro init
      by_cases hkx : dedupKey x = k
      · cases init with
        | none =>
            rw [show hFold none k (x :: rest) = hFold (some x) k rest from by
              simp only [hFold, if_pos hkx]]
            rw [ih (some x)]
            constructor
            · rintro (⟨hxr, hmax⟩ | ⟨hkr, hc, hmax, hfind⟩)
              · obtain rfl : x = r := Option.some.inj hxr
                refine Or.inr ⟨hkx, by simp, (max_cons_iff hkx).mpr ⟨le_refl _, hmax⟩, ?_⟩
                rw [List.find?_cons_of_pos _ (by simp [hkx])]
              · have hxlt : timeKey x < timeKey r := hc x rfl
                refine Or.inr ⟨hkr, by simp,
                  (max_cons_iff hkx).mpr ⟨le_of_lt hxlt, hmax⟩, ?_⟩
                rw [List.find?_cons_of_neg _ (by simp [ne_of_lt hxlt])]
                exact hfind
            · rintro (⟨h, -⟩ | ⟨hkr, -, hmax, hfind⟩)
              · exact absurd h (by simp)
              · obtain ⟨hxle, hmaxR⟩ := (max_cons_iff hkx).mp hmax
                by_cases hxt : timeKey x = timeKey r
                · rw [List.find?_cons_of_pos _ (by simp [hxt, hkx])] at hfind
                  obtain rfl : x = r := Option.some.inj hfind
                  exact Or.inl ⟨rfl, hmaxR⟩
                · rw [List.find?_cons_of_neg _ (by simp [hxt])] at hfind
                  refine Or.inr ⟨hkr, ?_, hmaxR, hfind⟩
                  intro c hc
                  obtain rfl : x = c := Option.some.inj hc
                  exact lt_of_le_of_ne hxle hxt
        | some c =>
            by_cases ht : timeKey c < timeKey x
            · rw [show hFold (some c) k (x :: rest) = hFold (some x) k rest from by
                simp only [hFold, if_pos hkx, if_pos ht]]
              rw [ih (some x)]
              constructor
              · rintro (⟨hxr, hmaxR⟩ | ⟨hkr, hc2, hmaxR, hfindR⟩)
                · obtain rfl : x = r := Option.some.inj hxr
                  refine Or.inr ⟨hkx, ?_, (max_cons_iff hkx).mpr ⟨le_refl _, hmaxR⟩, ?_⟩
                  · intro c2 hc2
                    obtain rfl : c = c2 := Option.some.inj hc2
                    exact ht
                  · rw [List.find?_cons_of_pos _ (by simp [hkx])]
                · have hxlt : timeKey x < timeKey r := hc2 x rfl
                  refine Or.inr ⟨hkr, ?_,
                    (max_cons_iff hkx).mpr ⟨le_of_lt hxlt, hmaxR⟩, ?_⟩
                  · intro c2 hc2
                    obtain rfl : c = c2 := Option.some.inj hc2
                    exact lt_trans ht hxlt
                  · rw [List.find?_cons_of_neg _ (by simp [ne_of_lt hxlt])]
                    exact hfindR
              · rintro (⟨hcr, hmax⟩ | ⟨hkr, hcc, hmax, hfind⟩)
                · obtain rfl : c = r := Option.some.inj hcr
                  obtain ⟨hxle, -⟩ := (max_cons_iff hkx).mp hmax
                  exact absurd (lt_of_lt_of_le ht hxle) (lt_irrefl _)
                · obtain ⟨hxle, hmaxR⟩ := (max_cons_iff hkx).mp hmax
                  by_cases hxt : timeKey x = timeKey r
                  · rw [List.find?_cons_of_pos _ (by simp [hxt, hkx])] at hfind
                    obtain rfl : x = r := Option.some.inj hfind
                    exact Or.inl ⟨rfl, hmaxR⟩
                  · rw [List.find?_cons_of_neg _ (by simp [hxt])] at hfind
                    refine Or.inr ⟨hkr, ?_, hmaxR, hfind⟩
                    intro c2 hc2
                    obtain rfl : x = c2 := Option.some.inj hc2
                    exact lt_of_le_of_ne hxle hxt
            · rw [show hFold (some c) k (x :: rest) = hFold (some c) k rest from by
                simp only [hFold, if_pos hkx, if_neg ht]]
              rw [ih (some c)]
              have hxc : timeKey x ≤ timeKey c := not_lt.mp ht
              constructor
              · rintro (⟨hcr, hmaxR⟩ | ⟨hkr, hcc, hmaxR, hfindR⟩)
                · obtain rfl : c = r := Option.some.inj hcr
                  exact Or.inl ⟨rfl, (max_cons_iff hkx).mpr ⟨hxc, hmaxR⟩⟩
                · have hclt : timeKey c < timeKey r := hcc c rfl
                  have hxlt : timeKey x < timeKey r := lt_of_le_of_lt hxc hclt
                  refine Or.inr ⟨hkr, hcc,
                    (max_cons_iff hkx).mpr ⟨le_of_lt hxlt, hmaxR⟩, ?_⟩
                  rw [List.find?_cons_of_neg _ (by simp [ne_of_lt hxlt])]
                  exact hfindR
              · rintro (⟨hcr, hmax⟩ | ⟨hkr, hcc, hmax, hfind⟩)
                · obtain rfl : c = r := Option.some.inj hcr
                  exact Or.inl ⟨rfl, ((max_cons_iff hkx).mp hmax).2⟩
                · have hclt : timeKey c < timeKey r := hcc c rfl
                  have hxlt : timeKey x < timeKey r := lt_of_le_of_lt hxc hclt
                  rw [List.find?_cons_of_neg _ (by simp [ne_of_lt hxlt])] at hfind
                  exact Or.inr ⟨hkr, hcc, ((max_cons_iff hkx).mp hmax).2, hfind⟩
      · rw [show hFold init k (x :: rest) = hFold init k rest from by
          simp only [hFold, if_neg hkx]]
        rw [ih init]
        rw [List.find?_cons_of_neg _ (by simp [hkx])]
        simp only [max_cons_iff_of_ne hkx]

theorem mem_mergeAllByTime_iff {data : List Record} {r : Record}
    (hall : ∀ s ∈ data, dedupKey s ≠ "") :
    r ∈ mergeAllByTime data ↔ isFinal data r := by
  have hprops := foldl_merge_props (pySortAsc data) [] (by simp)
  rw [mergeAllByTime, mem_store_iff_find? hprops.1, hprops.2 (dedupKey r),
    show ([] : List Record).find? (fun s => dedupKey s == dedupKey r) = none from rfl,
    hFold_eq_some_iff]
  constructor
  · rintro (⟨h, -⟩ | ⟨-, -, hmax, hfind⟩)
    · exact absurd h (by simp)
    · have hfd : data.find?
          (fun s => timeKey s == timeKey r && dedupKey s == dedupKey r) = some r := by
        have h1 : ((pySortAsc data).filter (fun x => timeKey x == timeKey r)).find?
            (fun s => dedupKey s == dedupKey r) = some r := by
          rw [filter_find?]
          exact hfind
        rw [pySortAsc_filter_timeKey, filter_find?] at h1
        exact h1
      refine ⟨hall r (List.mem_of_find?_eq_some hfd), ?_, hfd⟩
      intro s hs hks
      exact hmax s (mem_pySortAsc.mpr hs) hks
  · rintro ⟨hne, hmax, hfind⟩
    refine Or.inr ⟨rfl, by simp, ?_, ?_⟩
    · intro s hs hks
      exact hmax s (mem_pySortAsc.mp hs) hks
    · have h1 : (data.filter (fun x => timeKey x == timeKey r)).find?
          (fun s => dedupKey s == dedupKey r) = some r := by
        rw [filter_find?]
        exact hfind
      rw [← pySortAsc_filter_timeKey, filter_find?] at h1
      exact h1

/-- **C3 counterexample.** A record with neither file name nor title is kept
by the spec's incremental merge (it has no earlier record to lose to) but is
discarded by the batch pass, so on the singleton collection the two final
sets differ. -/
theorem batch_vs_merge_differ_on_identityless :
    (⟨none, none, none, 0⟩ : Record) ∈ mergeAllByTime [⟨none, none, none, 0⟩] ∧
    (⟨none, none, none, 0⟩ : Record) ∉
      remove_duplicate_files [⟨none, none, none, 0⟩] := by
  constructor
  · decide
  · decide

/-- **C3 (amended).** On every collection whose records all have a non-empty
identity (file name, or title as fallback), the batch pass of
`remove_duplicate_files` produces exactly the final set reached by folding
the spec's incremental last-write-wins `merge` over the records in ascending
processing-timestamp order. -/
theorem batch_dedup_equals_merge_in_time_order (data : List Record)
    (hall : ∀ s ∈ data, dedupKey s ≠ "") (r : Record) :
    r ∈ remove_duplicate_files data ↔ r ∈ mergeAllByTime data :=
  mem_remove_duplicate_files_iff.trans (mem_mergeAllByTime_iff hall).symm

/-- **C3 witness.** On a two-record collection with a shared identity the
two operations agree: the later record is in both final sets. -/
theorem batch_dedup_equals_merge_in_time_order_witness :
    (⟨some "a", none, some 2, 1⟩ : Record) ∈
      mergeAllByTime [⟨some "a", none, some 1, 0⟩, ⟨some "a", none, some 2, 1⟩] :=
  (batch_dedup_equals_merge_in_time_order
    [⟨some "a", none, some 1, 0⟩, ⟨some "a", none, some 2, 1⟩]
    (by decide) ⟨some "a", none, some 2, 1⟩).mp (by decide)

/-! ### The AI Client Manager (specification model)

The repository's documentation references `ai_client_manager.py`, but the
module itself is not among the shipped sources, so the failover algorithm of
§4.1 is modelled from the specification. -/

/-- Modelled from the spec: one configured `BackendEndpoint` (identifier,
priority with lower tried first, enabled flag), together with the abstract
behaviour of its backend: `attemptResult n` is the outcome of the n-th call
attempt against this endpoint (a summary text, or a failure reason). -/
structure Endpoint where
  id : String
  priority : Nat
  enabled : Bool
  attemptResult : Nat → Except String String

/-- Output of one successful logical summarize call: the summary text and
the identifier of the backend that produced it. -/
structure SummaryResult where
  text : String
  backend : String
deriving DecidableEq, Repr

/-- Modelled from the spec: the result of the manager's `summarize` — a
result, or `BackendExhausted` carrying the per-endpoint failure reasons. -/
inductive SummarizeOutcome where
  | ok (res : SummaryResult)
  | exhausted (failures : List (String × List String))
deriving DecidableEq, Repr

/-- Modelled from the spec: up to `fuel` attempts against one endpoint
(initial try plus retries), returning the first success or a list of the
failure reasons in attempt order. -/
def tryAttempts (e : Endpoint) : Nat → Nat → Except (List String) String
  | 0, _ => Except.error []
  | fuel + 1, k =>
      match e.attemptResult k with
      | Except.ok t => Except.ok t
      | Except.error msg =>
          match tryAttempts e fuel (k + 1) with
          | Except.ok t => Except.ok t
          | Except.error msgs => Except.error (msg :: msgs)

/-- Stable insertion by ascending priority (lower priority value first). -/
def insertByPriority (e : Endpoint) : List Endpoint → List Endpoint
  | [] => [e]
  | f :: rest =>
      if e.priority ≤ f.priority then e :: f :: rest
      else f :: insertByPriority e rest

/-- Endpoints in ascending priority order. -/
def sortByPriority : List Endpoint → List Endpoint
  | [] => []
  | e :: rest => insertByPriority e (sortByPriority rest)

/-- Modelled from the spec: visit the remaining endpoints in order; on an
endpoint's success return immediately with its backend identifier, otherwise
record the endpoint's failure reasons and move on; when no endpoint is left,
fail with `BackendExhausted` and the collected reasons. -/
def summarizeGo (retries : Nat) : List Endpoint → List (String × List String) →
    SummarizeOutcome
  | [], failures => SummarizeOutcome.exhausted failures
  | e :: rest, failures =>
      match tryAttempts e (retries + 1) 0 with
      | Except.ok t => SummarizeOutcome.ok ⟨t, e.id⟩
      | Except.error msgs => summarizeGo retries rest (failures ++ [(e.id, msgs)])

/-- Modelled from the spec: `summarize` of the AI Client Manager (§4.1) —
disabled endpoints are skipped without counting as failures, the rest are
visited in ascending priority order with `retries` retries per endpoint.
The text and parameters of the call are abstracted into each endpoint's
`attemptResult`. -/
def summarize (retries : Nat) (endpoints : List Endpoint) : SummarizeOutcome :=
  summarizeGo retries (sortByPriority (endpoints.filter (fun e => e.enabled))) []

theorem insertByPriority_perm (e : Endpoint) (l : List Endpoint) :
    List.Perm (insertByPriority e l) (e :: l) := by
  induction l with
  | nil => simp [insertByPriority]
  | cons f rest ih =>
      by_cases h : e.priority ≤ f.priority
      · simp [insertByPriority, h]
      · simp only [insertByPriority, if_neg h]
        exact (ih.cons f).trans (List.Perm.swap e f rest)

theorem mem_sortByPriority {e : Endpoint} :
    ∀ {l : List Endpoint}, e ∈ sortByPriority l ↔ e ∈ l := by
  intro l
  induction l with
  | nil => simp [sortByPriority]
  | cons f rest ih =>
      rw [sortByPriority]
      rw [(insertByPriority_perm f (sortByPriority rest)).mem_iff]
      rw [List.mem_cons, List.mem_cons, ih]

theorem tryAttempts_error_all {e : Endpoint} :
    ∀ (fuel k : Nat) (msgs : List String),
      tryAttempts e fuel k = Except.error msgs →
      ∀ j, k ≤ j → j < k + fuel → ∃ msg, e.attemptResult j = Except.error msg := by
  intro fuel
  induction fuel with
  | zero => intro k msgs _ j h1 h2; omega
  | succ fuel ih =>
      intro k msgs herr j h1 h2
      cases hk : e.attemptResult k with
      | ok t => rw [tryAttempts, hk] at herr; exact absurd herr (by simp)
      | error msg =>
          by_cases hj : j = k
          · exact ⟨msg, hj ▸ hk⟩
          · rw [tryAttempts, hk] at herr
            cases hrec : tryAttempts e fuel (k + 1) with
            | ok t => rw [hrec] at herr; exact absurd herr (by simp)
            | error msgs2 =>
                exact ih (k + 1) msgs2 hrec j (by omega) (by omega)

theorem summarizeGo_exhausted {retries : Nat} :
    ∀ (l : List Endpoint) (acc fs : List (String × List String)),
      summarizeGo retries l acc = SummarizeOutcome.exhausted fs →
      ∀ e ∈ l, ∃ msgs, tryAttempts e (retries + 1) 0 = Except.error msgs := by
  intro l
  induction l with
  | nil => intro acc fs _ e he; exact absurd he (List.not_mem_nil e)
  | cons f rest ih =>
      intro acc fs hex e he
      cases htry : tryAttempts f (retries + 1) 0 with
      | ok t =>
          rw [summarizeGo, htry] at hex
          exact absurd hex (by simp)
      | error msgs =>
          rw [summarizeGo, htry] at hex
          rcases List.mem_cons.mp he with rfl | he
          · exact ⟨msgs, htry⟩
          · exact ih (acc ++ [(f.id, msgs)]) fs hex e he

/-- **C6.** `summarize` reports `BackendExhausted` only when every
configured, enabled endpoint has been tried — all of its attempts, initial
try and retries, having failed; and on the two-endpoint configuration with
the priority-1 endpoint A broken and the priority-2 endpoint B healthy,
`summarize` returns B's summary carrying backend identifier "B". -/
theorem summarize_exhausted_only_when_all_failed :
    (∀ (retries : Nat) (eps : List Endpoint) (fs : List (String × List String)),
      summarize retries eps = SummarizeOutcome.exhausted fs →
      ∀ e ∈ eps, e.enabled = true →
        ∀ k ≤ retries, ∃ msg, e.attemptResult k = Except.error msg) ∧
    summarize 2
        [⟨"B", 2, true, fun _ => Except.ok "B-summary"⟩,
         ⟨"A", 1, true, fun _ => Except.error "connection refused"⟩] =
      SummarizeOutcome.ok ⟨"B-summary", "B"⟩ := by
  constructor
  · intro retries eps fs hex e he henabled k hk
    have hmem : e ∈ sortByPriority (eps.filter (fun e => e.enabled)) :=
      mem_sortByPriority.mpr (List.mem_filter.mpr ⟨he, henabled⟩)
    obtain ⟨msgs, htry⟩ := summarizeGo_exhausted _ [] fs hex e hmem
    exact tryAttempts_error_all (retries + 1) 0 msgs htry k (Nat.zero_le k) (by omega)
  · rfl

/-- **C6 witness.** The failover example, plus the exhaustion contract
applied to a concrete one-endpoint configuration that always fails. -/
theorem summarize_exhausted_only_when_all_failed_witness :
    summarize 2
        [⟨"B", 2, true, fun _ => Except.ok "B-summary"⟩,
         ⟨"A", 1, true, fun _ => Except.error "connection refused"⟩] =
      SummarizeOutcome.ok ⟨"B-summary", "B"⟩ ∧
    ∃ msg, (⟨"A", 1, true, fun _ => Except.error "down"⟩ : Endpoint).attemptResult 0 =
      Except.error msg := by
  refine ⟨summarize_exhausted_only_when_all_failed.2, ?_⟩
  exact summarize_exhausted_only_when_all_failed.1 0
    [⟨"A", 1, true, fun _ => Except.error "down"⟩] [("A", ["down"])] rfl
    ⟨"A", 1, true, fun _ => Except.error "down"⟩ (List.mem_singleton.mpr rfl) rfl
    0 (Nat.le_refl 0)
